import Mathlib

/-!
A verification development for the dependency-roll engine of
`tools_webrtc/autoroller/roll_deps.py`.

The Python functions `BuildDepsentryDict`, `_RemoveStringPrefix`,
`_FindChangedCipdPackages`, `CalculateChangedDeps` and
`GenerateCommitMessage` are shallowly embedded below.  Conventions:

* Python dicts are modelled as association lists (`List (String × _)`);
  dict iteration is modelled as iteration in list order (the script's
  final `sorted(result)` makes successful outputs independent of dict
  iteration order).
* Python exceptions (`AssertionError` from `assert`, `ValueError` from
  tuple unpacking of `split`, `KeyError`/`AttributeError` from missing
  keys and attributes) abort the computation; they are modelled with
  `Except Err`, one constructor per distinct failure site, named after
  the error taxonomy used in the documentation of the engine.
* Python byte strings are modelled as `String`; the character-level
  operations used by the script (`split('@')`, `startswith`, slicing,
  `in`, comparison) are modelled by structural functions on `.data`
  so that every definition evaluates by kernel reduction.
* `sorted` (a stable sort by the lexicographic order on the namedtuples,
  i.e. on 4-tuples of strings) is modelled by `List.insertionSort`,
  which is also a stable sort and hence produces the same list.
* The external collaborator `git ls-remote <url> HEAD` used for paths
  that are local to the manifest is modelled as a function argument
  `head : String → String` (the `HEAD(url) → revision` resolver seam);
  `git config user.email` in `GenerateCommitMessage` is the injected
  `git_author` argument.
-/

namespace RollDeps

/-- ASCII/codepoint lexicographic strict order on char lists, the order
Python uses to compare strings. -/
def charListLt : List Char → List Char → Bool
  | _, [] => false
  | [], _ :: _ => true
  | a :: as, b :: bs => if a < b then true else if b < a then false else charListLt as bs

/-- Python `a <= b` on strings: strict lexicographic order or equality. -/
def lexLe (a b : String) : Bool := charListLt a.data b.data || decide (a = b)

/-- Python `needle in hay` prefix worker: is the first list an initial
segment of the second. -/
def listIsPfx : List Char → List Char → Bool
  | [], _ => true
  | _ :: _, [] => false
  | a :: as, b :: bs => if a = b then listIsPfx as bs else false

/-- Python `needle in hay` (contiguous substring test). -/
def listHasSub (needle : List Char) : List Char → Bool
  | [] => listIsPfx needle []
  | c :: rest => listIsPfx needle (c :: rest) || listHasSub needle rest

/-- Python `needle in hay` on strings. -/
def pyInStr (needle hay : String) : Bool := listHasSub needle.data hay.data

/-- Python `s.startswith(pre)`. -/
def pyStartsWith (s pre : String) : Bool := listIsPfx pre.data s.data

/-- Python `s[:n]` (slicing by characters). -/
def pyTake (s : String) (n : Nat) : String := ⟨s.data.take n⟩

/-- Python `s.split(sep)` worker for a one-character separator: splits on
every occurrence; the result always has one more piece than there are
separators. -/
def splitCharList (sep : Char) : List Char → List (List Char)
  | [] => [[]]
  | c :: rest =>
    match splitCharList sep rest with
    | [] => if c = sep then [[], []] else [[c]]
    | h :: t => if c = sep then [] :: h :: t else (c :: h) :: t

/-- Python `s.split(sep)` for a one-character separator. -/
def pySplit (sep : Char) (s : String) : List String :=
  (splitCharList sep s.data).map (fun l => ⟨l⟩)

/-- `CipdPackage`: one element of a CIPD `packages` list, a dict with
`package` and `version` keys. -/
structure CipdPackage where
  package : String
  version : String
deriving DecidableEq, Repr

/-- A raw value of the parsed `deps`/`deps_os` dicts: either a plain
string `"url@revision"`, or a dict with optional `dep_type`, `url` and
`packages` keys (absent keys raise `KeyError` when accessed). -/
inductive RawDep where
  | str (s : String)
  | dict (dep_type : Option String) (url : Option String) (packages : Option (List CipdPackage))
deriving DecidableEq, Repr

/-- `DepsEntry = collections.namedtuple('DepsEntry', 'path url revision')`. -/
structure DepsEntry where
  path : String
  url : String
  revision : String
deriving DecidableEq, Repr

/-- `CipdDepsEntry = collections.namedtuple('CipdDepsEntry', 'path packages')`. -/
structure CipdDepsEntry where
  path : String
  packages : List CipdPackage
deriving DecidableEq, Repr

/-- An entry of the built index: git kind or CIPD kind. -/
inductive Entry where
  | deps (e : DepsEntry)
  | cipd (e : CipdDepsEntry)
deriving DecidableEq, Repr

/-- `ChangedDep = collections.namedtuple('ChangedDep', 'path url current_rev new_rev')`. -/
structure ChangedDep where
  path : String
  url : String
  current_rev : String
  new_rev : String
deriving DecidableEq, Repr

/-- `ChangedCipdPackage = namedtuple(..., 'path package current_version new_version')`. -/
structure ChangedCipdPackage where
  path : String
  package : String
  current_version : String
  new_version : String
deriving DecidableEq, Repr

/-- An element of the change list produced by the diff. -/
inductive Changed where
  | dep (c : ChangedDep)
  | cipd (c : ChangedCipdPackage)
deriving DecidableEq, Repr

/-- The fatal failures of the engine, one constructor per failure site of
the script (`assert` statements, `ValueError` from unpacking `split`,
`KeyError`/`AttributeError` on missing keys/attributes). -/
inductive Err where
  | malformedEntry (path : String)
  | schemeMismatch (path : String)
  | urlMismatch (path url1 url2 : String)
  | packageSetMismatch (path : String)
  | versionPrefixMissing (version : String)
  | noUrlAttribute (path : String)
deriving DecidableEq, Repr

instance {ε α : Type} [DecidableEq ε] [DecidableEq α] : DecidableEq (Except ε α)
  | .ok a, .ok b =>
    if h : a = b then .isTrue (by rw [h]) else .isFalse (by intro he; cases he; exact h rfl)
  | .ok _, .error _ => .isFalse (by intro he; cases he)
  | .error _, .ok _ => .isFalse (by intro he; cases he)
  | .error e, .error f =>
    if h : e = f then .isTrue (by rw [h]) else .isFalse (by intro he; cases he; exact h rfl)

/-- Python `d.get(key)` on an association-list dict: first matching key. -/
def lookupPath (p : String) : List (String × α) → Option α
  | [] => none
  | (q, v) :: rest => if q = p then some v else lookupPath p rest

/-- The body of `BuildDepsentryDict.AddDepsEntries` for one `(path, dep)`
item: a non-dict value is wrapped as `{'url': dep}`; a `dep_type: "cipd"`
dict yields a `CipdDepsEntry` from its `packages` key; otherwise
`url, revision = dep['url'].split('@')` yields a `DepsEntry` (failing
unless the split has exactly two pieces). -/
def parseDep (path : String) (dep : RawDep) : Except Err Entry :=
  let asDict : Option String × Option String × Option (List CipdPackage) :=
    match dep with
    | .str s => (none, some s, none)
    | .dict dep_type url packages => (dep_type, url, packages)
  match asDict with
  | (dep_type, url, packages) =>
    if dep_type = some "cipd" then
      match packages with
      | some pkgs => .ok (.cipd ⟨path, pkgs⟩)
      | none => .error (.malformedEntry path)
    else
      match url with
      | some u =>
        match pySplit '@' u with
        | [url_part, revision] => .ok (.deps ⟨path, url_part, revision⟩)
        | _ => .error (.malformedEntry path)
      | none => .error (.malformedEntry path)

/-- `AddDepsEntries(deps_subdict)`: insert each item whose path is not
already present into the accumulated result dict. -/
def addDepsEntries : List (String × RawDep) → List (String × Entry) → Except Err (List (String × Entry))
  | [], result => .ok result
  | (path, dep) :: rest, result =>
    if (lookupPath path result).isSome then addDepsEntries rest result
    else
      match parseDep path dep with
      | .error e => .error e
      | .ok entry => addDepsEntries rest (result ++ [(path, entry)])

/-- The raw parsed manifest: its `deps` dict and its `deps_os` dict of
per-platform `deps`-shaped dicts. -/
structure DepsDict where
  deps : List (String × RawDep)
  deps_os : List (String × List (String × RawDep))
deriving DecidableEq, Repr

/-- The per-platform loop of `BuildDepsentryDict`: for each requested
platform in order, add the entries of `deps_os[platform]` (default `{}`)
for paths not already present. -/
def addPlatformSections (deps_os : List (String × List (String × RawDep))) :
    List String → List (String × Entry) → Except Err (List (String × Entry))
  | [], result => .ok result
  | platform :: rest, result =>
    match addDepsEntries ((lookupPath platform deps_os).getD []) result with
    | .error e => .error e
    | .ok result2 => addPlatformSections deps_os rest result2

/-- `BuildDepsentryDict` generalised over the list of platform sections
processed after the base `deps` (the script hardcodes
`DEPS_OS_PLATFORMS`). -/
def buildDepsentryDictWith (platforms : List String) (d : DepsDict) :
    Except Err (List (String × Entry)) :=
  match addDepsEntries d.deps [] with
  | .error e => .error e
  | .ok result => addPlatformSections d.deps_os platforms result

/-- The platform list hardcoded in `BuildDepsentryDict`. -/
def DEPS_OS_PLATFORMS : List String := ["win", "mac", "unix", "android", "ios", "unix"]

/-- `BuildDepsentryDict(deps_dict)`. -/
def BuildDepsentryDict (d : DepsDict) : Except Err (List (String × Entry)) :=
  buildDepsentryDictWith DEPS_OS_PLATFORMS d

/-- `_RemoveStringPrefix(string, substring)`: `assert string.startswith(substring)`
then `string[len(substring):]`. -/
def _RemoveStringPrefix (string substring : String) : Except Err String :=
  if pyStartsWith string substring then .ok ⟨string.data.drop substring.data.length⟩
  else .error (.versionPrefixMissing string)

/-- The version string with the `version:` prefix removed. -/
def stripVersion (v : String) : String := ⟨v.data.drop "version:".data.length⟩

/-- Python set equality of `{x for x in xs}` and `{y for y in ys}`. -/
def sameStringSet (xs ys : List String) : Bool :=
  xs.all (fun x => decide (x ∈ ys)) && ys.all (fun y => decide (y ∈ xs))

/-- The inner loop of `_FindChangedCipdPackages` for a fixed `old_pkg`:
for each `new_pkg`, strip the `version:` prefix from both versions
(asserting it is present) and yield a `ChangedCipdPackage` when the
package names agree and the stripped versions differ. -/
def cipdInner (path : String) (old_pkg : CipdPackage) : List CipdPackage → Except Err (List Changed)
  | [] => .ok []
  | new_pkg :: rest =>
    match _RemoveStringPrefix old_pkg.version "version:" with
    | .error e => .error e
    | .ok old_version =>
      match _RemoveStringPrefix new_pkg.version "version:" with
      | .error e => .error e
      | .ok new_version =>
        match cipdInner path old_pkg rest with
        | .error e => .error e
        | .ok tl =>
          if old_pkg.package = new_pkg.package ∧ old_version ≠ new_version then
            .ok (Changed.cipd ⟨path, old_pkg.package, old_version, new_version⟩ :: tl)
          else .ok tl

/-- The outer loop of `_FindChangedCipdPackages` over `old_pkgs`. -/
def cipdOuter (path : String) (new_pkgs : List CipdPackage) : List CipdPackage → Except Err (List Changed)
  | [] => .ok []
  | old_pkg :: rest =>
    match cipdInner path old_pkg new_pkgs with
    | .error e => .error e
    | .ok hd =>
      match cipdOuter path new_pkgs rest with
      | .error e => .error e
      | .ok tl => .ok (hd ++ tl)

/-- `_FindChangedCipdPackages(path, old_pkgs, new_pkgs)`: assert that the
package-name sets agree, then compare versions pairwise. -/
def _FindChangedCipdPackages (path : String) (old_pkgs new_pkgs : List CipdPackage) :
    Except Err (List Changed) :=
  if sameStringSet (old_pkgs.map CipdPackage.package) (new_pkgs.map CipdPackage.package) then
    cipdOuter path new_pkgs old_pkgs
  else .error (.packageSetMismatch path)

/-- One iteration of the `CalculateChangedDeps` loop for a path of the
local (WebRTC) index: a shared path must agree in kind (else the type
assert fires), a shared git path must agree in url (else the url assert
fires) and contributes one `ChangedDep` when the revisions differ; a
path absent from the remote index is resolved through the `head`
collaborator (`git ls-remote <url> HEAD`) and contributes one
`ChangedDep` when that differs from the pinned revision (a CIPD entry
has no `url` attribute, so that case fails). -/
def processEntry (head : String → String) (new_cr_entries : List (String × Entry))
    (path : String) (entry : Entry) : Except Err (List Changed) :=
  match lookupPath path new_cr_entries with
  | some cr_entry =>
    match entry, cr_entry with
    | .cipd w, .cipd c => _FindChangedCipdPackages path w.packages c.packages
    | .deps w, .deps c =>
      if w.url = c.url then
        if w.revision = c.revision then .ok []
        else .ok [Changed.dep ⟨path, w.url, w.revision, c.revision⟩]
      else .error (.urlMismatch path w.url c.url)
    | _, _ => .error (.schemeMismatch path)
  | none =>
    match entry with
    | .deps w =>
      if w.revision = head w.url then .ok []
      else .ok [Changed.dep ⟨path, w.url, w.revision, head w.url⟩]
    | .cipd _ => .error (.noUrlAttribute path)

/-- The loop of `CalculateChangedDeps` over the local index, skipping the
configured paths and concatenating the per-path contributions. -/
def changedDepsLoop (head : String → String) (skip : List String)
    (new_cr_entries : List (String × Entry)) : List (String × Entry) → Except Err (List Changed)
  | [] => .ok []
  | (path, entry) :: rest =>
    if path ∈ skip then changedDepsLoop head skip new_cr_entries rest
    else
      match processEntry head new_cr_entries path entry with
      | .error e => .error e
      | .ok cs =>
        match changedDepsLoop head skip new_cr_entries rest with
        | .error e => .error e
        | .ok tl => .ok (cs ++ tl)

/-- The 4-tuple of strings a change record is as a namedtuple, the key of
the final `sorted(result)`. -/
def keyOf : Changed → String × String × String × String
  | .dep c => (c.path, c.url, c.current_rev, c.new_rev)
  | .cipd c => (c.path, c.package, c.current_version, c.new_version)

/-- Python tuple `<=` on the 4-tuples of strings: lexicographic by
component. -/
def tupleLe (x y : String × String × String × String) : Bool :=
  charListLt x.1.data y.1.data ||
    (decide (x.1 = y.1) &&
      (charListLt x.2.1.data y.2.1.data ||
        (decide (x.2.1 = y.2.1) &&
          (charListLt x.2.2.1.data y.2.2.1.data ||
            (decide (x.2.2.1 = y.2.2.1) &&
              (charListLt x.2.2.2.data y.2.2.2.data || decide (x.2.2.2 = y.2.2.2)))))))

/-- The total order `sorted(result)` sorts by. -/
def changedOrder (a b : Changed) : Prop := tupleLe (keyOf a) (keyOf b) = true

instance : DecidableRel changedOrder :=
  fun a b => inferInstanceAs (Decidable (tupleLe (keyOf a) (keyOf b) = true))

/-- `CalculateChangedDeps` on two already-built entry indexes: run the
loop, then return `sorted(result)` (a stable sort, modelled by insertion
sort). -/
def CalculateChangedDepsFromEntries (head : String → String) (skip : List String)
    (webrtc_entries new_cr_entries : List (String × Entry)) : Except Err (List Changed) :=
  match changedDepsLoop head skip new_cr_entries webrtc_entries with
  | .error e => .error e
  | .ok result => .ok (List.insertionSort changedOrder result)

/-- The module-level skip list `DONT_AUTOROLL_THESE`. -/
def DONT_AUTOROLL_THESE : List String :=
  ["src/examples/androidtests/third_party/gradle", "src/third_party_chromium"]

/-- `CalculateChangedDeps(webrtc_deps, new_cr_deps)` with the skip list
and the HEAD resolver as explicit inputs: build both indexes, then diff
them. -/
def CalculateChangedDeps (head : String → String) (skip : List String)
    (webrtc_deps new_cr_deps : DepsDict) : Except Err (List Changed) :=
  match BuildDepsentryDict webrtc_deps with
  | .error e => .error e
  | .ok webrtc_entries =>
    match BuildDepsentryDict new_cr_deps with
    | .error e => .error e
    | .ok new_cr_entries =>
      CalculateChangedDepsFromEntries head skip webrtc_entries new_cr_entries

/-- The path a change record reports. -/
def changePath : Changed → String
  | .dep c => c.path
  | .cipd c => c.path

/-- The second tuple component of a change record: the url of a git
change, the package name of a CIPD change. -/
def changeKey2 : Changed → String
  | .dep c => c.url
  | .cipd c => c.package

/-- Whether a change record is a CIPD package change. -/
def isCipdChange : Changed → Bool
  | .dep _ => false
  | .cipd _ => true

/-- A change record whose old and new values differ (no no-op entry). -/
def nontrivialChange : Changed → Prop
  | .dep c => c.current_rev ≠ c.new_rev
  | .cipd c => c.current_version ≠ c.new_version

/-- The per-package change `_FindChangedCipdPackages` is expected to emit
for one local package, per the engine documentation: look the package
name up among the remote packages and emit one record exactly when the
`version:`-stripped versions differ. -/
def specCipdChange (path : String) (new_pkgs : List CipdPackage) (op : CipdPackage) : Option Changed :=
  match new_pkgs.find? (fun np => decide (np.package = op.package)) with
  | some np =>
    if stripVersion op.version = stripVersion np.version then none
    else some (Changed.cipd ⟨path, op.package, stripVersion op.version, stripVersion np.version⟩)
  | none => none

/-- A CIPD entry is well formed when its package names are distinct and
every version string carries the `version:` prefix. -/
def wellFormedEntry : Entry → Bool
  | .deps _ => true
  | .cipd e =>
    decide ((e.packages.map CipdPackage.package).Nodup) &&
      e.packages.all (fun pk => pyStartsWith pk.version "version:")

/-- A well-formed index: distinct paths (a dict invariant) and
well-formed CIPD entries. -/
def wellFormedIndex (idx : List (String × Entry)) : Bool :=
  decide ((idx.map Prod.fst).Nodup) && idx.all (fun pe => wellFormedEntry pe.2)

/-! Constants and helpers of `GenerateCommitMessage`. -/

def CHROMIUM_SRC_URL : String := "https://chromium.googlesource.com/chromium/src"

def CHROMIUM_COMMIT_TEMPLATE (s : String) : String := CHROMIUM_SRC_URL ++ "/+/" ++ s

def CHROMIUM_LOG_TEMPLATE (s : String) : String := CHROMIUM_SRC_URL ++ "/+log/" ++ s

def CHROMIUM_FILE_TEMPLATE (revision path : String) : String :=
  CHROMIUM_SRC_URL ++ "/+/" ++ revision ++ "/" ++ path

def CHROMIUM_3P_LOG_TEMPLATE (s : String) : String :=
  CHROMIUM_SRC_URL ++ "/third_party/+log/" ++ s

def EXTRA_TRYBOTS : String := "master.internal.tryserver.corp.webrtc:linux_internal"

def CLANG_UPDATE_SCRIPT_URL_PATH : String := "tools/clang/scripts/update.py"

/-- `ChromiumRevisionUpdate` namedtuple. -/
structure ChromiumRevisionUpdate where
  current_chromium_rev : String
  new_chromium_rev : String
  current_third_party_rev : String
  new_third_party_rev : String
deriving DecidableEq, Repr

/-- The Clang revision pair produced by `CalculateChangedClang` (only the
`current_rev`/`new_rev` fields are read by the formatter; its `url`
field is `None`). -/
structure ClangChange where
  current_rev : String
  new_rev : String
deriving DecidableEq, Repr

/-- The `* path: ...` line `GenerateCommitMessage` appends for one
change: `* path: current..new` for a CIPD change, and
`* path: url/+log/cur10..new10` (revisions truncated to 10 characters)
for a git change. -/
def changeLine : Changed → String
  | .cipd c => "* " ++ c.path ++ ": " ++ c.current_version ++ ".." ++ c.new_version
  | .dep c =>
    "* " ++ c.path ++ ": " ++ c.url ++ "/+log/" ++ pyTake c.current_rev 10 ++ ".." ++
      pyTake c.new_rev 10

/-- The `marpan@webrtc.org, ` contribution a change makes to the TBR
line when its path mentions libvpx. -/
def tbrContribution (c : Changed) : String :=
  if pyInStr "libvpx" (changePath c) then "marpan@webrtc.org, " else ""

/-- `rev_interval` of `GenerateCommitMessage`: both chromium revisions
truncated to 10 characters, joined with `..`. -/
def revInterval (rev_update : ChromiumRevisionUpdate) : String :=
  pyTake rev_update.current_chromium_rev 10 ++ ".." ++ pyTake rev_update.new_chromium_rev 10

/-- `rev_3p_interval` of `GenerateCommitMessage`. -/
def rev3pInterval (rev_update : ChromiumRevisionUpdate) : String :=
  pyTake rev_update.current_third_party_rev 10 ++ ".." ++
    pyTake rev_update.new_third_party_rev 10

/-- The first five lines `GenerateCommitMessage` puts into `commit_msg`. -/
def commitHeaderLines (rev_update : ChromiumRevisionUpdate)
    (current_commit_pos new_commit_pos : Nat) : List String :=
  ["Roll chromium_revision " ++ (revInterval rev_update ++ (" (" ++
     (toString current_commit_pos ++ (":" ++ (toString new_commit_pos ++ ")\n"))))),
   "Change log: " ++ CHROMIUM_LOG_TEMPLATE (revInterval rev_update),
   "Full diff: " ++ (CHROMIUM_COMMIT_TEMPLATE (revInterval rev_update) ++ "\n"),
   "Roll chromium third_party " ++ rev3pInterval rev_update,
   "Change log: " ++ (CHROMIUM_3P_LOG_TEMPLATE (rev3pInterval rev_update) ++ "\n")]

/-- The changed-dependencies block: either the fixed no-change line, or
the header plus one line per change plus the DEPS diff url. -/
def depsBlockLines (rev_interval : String) (changed_deps_list : List Changed) : List String :=
  if changed_deps_list = [] then ["No dependencies changed."]
  else
    "Changed dependencies:" :: changed_deps_list.map changeLine ++
      ["DEPS diff: " ++ (CHROMIUM_FILE_TEMPLATE rev_interval "DEPS" ++ "\n")]

/-- The Clang block of `GenerateCommitMessage`. -/
def clangBlockLines (rev_interval : String) (clang_change : ClangChange) : List String :=
  if clang_change.current_rev = clang_change.new_rev then ["No update to Clang.\n"]
  else
    ["Clang version changed " ++ (clang_change.current_rev ++ (":" ++ clang_change.new_rev)),
     "Details: " ++ (CHROMIUM_FILE_TEMPLATE rev_interval CLANG_UPDATE_SCRIPT_URL_PATH ++ "\n")]

/-- The trailer lines of `GenerateCommitMessage`. -/
def commitTrailerLines (git_author tbr_authors : String) : List String :=
  ["TBR=" ++ (git_author ++ "," ++ tbr_authors), "BUG=None",
   "CQ_INCLUDE_TRYBOTS=" ++ EXTRA_TRYBOTS]

/-- `GenerateCommitMessage` as the list of lines it joins with newlines;
`git_author` is the result of the `git config user.email` collaborator. -/
def GenerateCommitMessageLines (git_author : String) (rev_update : ChromiumRevisionUpdate)
    (current_commit_pos new_commit_pos : Nat) (changed_deps_list : List Changed)
    (clang_change : ClangChange) : List String :=
  commitHeaderLines rev_update current_commit_pos new_commit_pos ++
    depsBlockLines (revInterval rev_update) changed_deps_list ++
    clangBlockLines (revInterval rev_update) clang_change ++
    commitTrailerLines git_author (String.join (changed_deps_list.map tbrContribution))

/-- `GenerateCommitMessage`: the lines joined with newlines. -/
def GenerateCommitMessage (git_author : String) (rev_update : ChromiumRevisionUpdate)
    (current_commit_pos new_commit_pos : Nat) (changed_deps_list : List Changed)
    (clang_change : ClangChange) : String :=
  "\n".intercalate
    (GenerateCommitMessageLines git_author rev_update current_commit_pos new_commit_pos
      changed_deps_list clang_change)

/-! Order facts about the Python string comparison. -/

theorem charListLt_irrefl (a : List Char) : charListLt a a = false := by
  induction a with
  | nil => rfl
  | cons x xs ih => simp [charListLt, lt_irrefl, ih]

theorem charListLt_conn : ∀ {a b : List Char},
    charListLt a b = false → charListLt b a = false → a = b := by
  intro a
  induction a with
  | nil =>
    intro b h1 h2
    cases b with
    | nil => rfl
    | cons y ys => simp [charListLt] at h1
  | cons x xs ih =>
    intro b h1 h2
    cases b with
    | nil => simp [charListLt] at h2
    | cons y ys =>
      simp only [charListLt] at h1 h2
      by_cases hxy : x < y
      · rw [if_pos hxy] at h1; cases h1
      · by_cases hyx : y < x
        · rw [if_pos hyx] at h2; cases h2
        · rw [if_neg hxy, if_neg hyx] at h1
          rw [if_neg hyx, if_neg hxy] at h2
          have hx : x = y := le_antisymm (not_lt.mp hyx) (not_lt.mp hxy)
          rw [hx, ih h1 h2]

theorem charListLt_trans : ∀ {a b c : List Char},
    charListLt a b = true → charListLt b c = true → charListLt a c = true := by
  intro a
  induction a with
  | nil =>
    intro b c h1 h2
    cases b with
    | nil => simp [charListLt] at h1
    | cons y ys =>
      cases c with
      | nil => simp [charListLt] at h2
      | cons z zs => rfl
  | cons x xs ih =>
    intro b c h1 h2
    cases b with
    | nil => simp [charListLt] at h1
    | cons y ys =>
      cases c with
      | nil => simp [charListLt] at h2
      | cons z zs =>
        simp only [charListLt] at h1 h2 ⊢
        by_cases hxy : x < y
        · by_cases hyz : y < z
          · rw [if_pos (lt_trans hxy hyz)]
          · by_cases hzy : z < y
            · rw [if_neg hyz, if_pos hzy] at h2; cases h2
            · have hyz2 : y = z := le_antisymm (not_lt.mp hzy) (not_lt.mp hyz)
              rw [if_pos (hyz2 ▸ hxy)]
        · by_cases hyx : y < x
          · rw [if_neg hxy, if_pos hyx] at h1; cases h1
          · have hxy2 : x = y := le_antisymm (not_lt.mp hyx) (not_lt.mp hxy)
            rw [if_neg hxy, if_neg hyx] at h1
            by_cases hyz : y < z
            · rw [if_pos (hxy2 ▸ hyz)]
            · by_cases hzy : z < y
              · rw [if_neg hyz, if_pos hzy] at h2; cases h2
              · rw [if_neg hyz, if_neg hzy] at h2
                have hxz : ¬x < z := hxy2 ▸ hyz
                have hzx : ¬z < x := hxy2 ▸ hzy
                rw [if_neg hxz, if_neg hzx]
                exact ih h1 h2

theorem strEq_of_data_eq {a b : String} (h : a.data = b.data) : a = b := by
  cases a; cases b; exact congrArg String.mk h

theorem strTrichotomy (a b : String) :
    charListLt a.data b.data = true ∨ charListLt b.data a.data = true ∨ a = b := by
  cases h1 : charListLt a.data b.data with
  | true => exact Or.inl rfl
  | false =>
    cases h2 : charListLt b.data a.data with
    | true => exact Or.inr (Or.inl rfl)
    | false => exact Or.inr (Or.inr (strEq_of_data_eq (charListLt_conn h1 h2)))

theorem tupleLe_total (x y : String × String × String × String) :
    tupleLe x y = true ∨ tupleLe y x = true := by
  obtain ⟨a1, a2, a3, a4⟩ := x
  obtain ⟨b1, b2, b3, b4⟩ := y
  simp only [tupleLe, Bool.or_eq_true, Bool.and_eq_true, decide_eq_true_eq]
  rcases strTrichotomy a1 b1 with h1 | h1 | h1
  · exact Or.inl (Or.inl h1)
  · exact Or.inr (Or.inl h1)
  · subst h1
    simp only [charListLt_irrefl, Bool.false_eq_true, false_or, eq_self_iff_true, true_and]
    rcases strTrichotomy a2 b2 with h2 | h2 | h2
    · exact Or.inl (Or.inl h2)
    · exact Or.inr (Or.inl h2)
    · subst h2
      simp only [charListLt_irrefl, Bool.false_eq_true, false_or, eq_self_iff_true, true_and]
      rcases strTrichotomy a3 b3 with h3 | h3 | h3
      · exact Or.inl (Or.inl h3)
      · exact Or.inr (Or.inl h3)
      · subst h3
        simp only [charListLt_irrefl, Bool.false_eq_true, false_or, eq_self_iff_true, true_and]
        rcases strTrichotomy a4 b4 with h4 | h4 | h4
        · exact Or.inl (Or.inl h4)
        · exact Or.inr (Or.inl h4)
        · exact Or.inl (Or.inr h4)

theorem tupleLe_trans {x y z : String × String × String × String}
    (h1 : tupleLe x y = true) (h2 : tupleLe y z = true) : tupleLe x z = true := by
  obtain ⟨a1, a2, a3, a4⟩ := x
  obtain ⟨b1, b2, b3, b4⟩ := y
  obtain ⟨c1, c2, c3, c4⟩ := z
  simp only [tupleLe, Bool.or_eq_true, Bool.and_eq_true, decide_eq_true_eq] at h1 h2 ⊢
  rcases h1 with h1 | ⟨e1, h1⟩
  · rcases h2 with h2 | ⟨e2, h2⟩
    · exact Or.inl (charListLt_trans h1 h2)
    · subst e2; exact Or.inl h1
  · subst e1
    rcases h2 with h2 | ⟨e2, h2⟩
    · exact Or.inl h2
    · subst e2
      refine Or.inr ⟨rfl, ?_⟩
      rcases h1 with h1 | ⟨e1, h1⟩
      · rcases h2 with h2 | ⟨e2, h2⟩
        · exact Or.inl (charListLt_trans h1 h2)
        · subst e2; exact Or.inl h1
      · subst e1
        rcases h2 with h2 | ⟨e2, h2⟩
        · exact Or.inl h2
        · subst e2
          refine Or.inr ⟨rfl, ?_⟩
          rcases h1 with h1 | ⟨e1, h1⟩
          · rcases h2 with h2 | ⟨e2, h2⟩
            · exact Or.inl (charListLt_trans h1 h2)
            · subst e2; exact Or.inl h1
          · subst e1
            rcases h2 with h2 | ⟨e2, h2⟩
            · exact Or.inl h2
            · subst e2
              refine Or.inr ⟨rfl, ?_⟩
              rcases h1 with h1 | e1
              · rcases h2 with h2 | e2
                · exact Or.inl (charListLt_trans h1 h2)
                · subst e2; exact Or.inl h1
              · subst e1
                exact h2

instance : IsTotal Changed changedOrder :=
  ⟨fun a b => tupleLe_total (keyOf a) (keyOf b)⟩

instance : IsTrans Changed changedOrder :=
  ⟨fun _ _ _ h1 h2 => tupleLe_trans h1 h2⟩

/-! Facts about `lookupPath` (dict lookup). -/

theorem lookupPath_mem {α : Type} {p : String} {v : α} :
    ∀ {l : List (String × α)}, lookupPath p l = some v → (p, v) ∈ l := by
  intro l
  induction l with
  | nil => intro h; simp [lookupPath] at h
  | cons qw rest ih =>
    obtain ⟨q, w⟩ := qw
    intro h
    simp only [lookupPath] at h
    by_cases hq : q = p
    · rw [if_pos hq] at h
      cases h
      subst hq
      exact List.mem_cons_self _ _
    · rw [if_neg hq] at h
      exact List.mem_cons_of_mem _ (ih h)

theorem lookupPath_eq_of_mem {α : Type} :
    ∀ {l : List (String × α)} {p : String} {v : α},
      (l.map Prod.fst).Nodup → (p, v) ∈ l → lookupPath p l = some v := by
  intro l
  induction l with
  | nil => intro p v _ hm; cases hm
  | cons qw rest ih =>
    obtain ⟨q, w⟩ := qw
    intro p v hn hm
    simp only [List.map_cons, List.nodup_cons] at hn
    rcases List.mem_cons.mp hm with he | hm2
    · cases he
      simp [lookupPath]
    · have hp : p ∈ rest.map Prod.fst := List.mem_map.mpr ⟨(p, v), hm2, rfl⟩
      have hq : q ≠ p := fun he2 => hn.1 (he2 ▸ hp)
      simp only [lookupPath, if_neg hq]
      exact ih hn.2 hm2

theorem lookupPath_append_none {α : Type} {p : String} :
    ∀ {a : List (String × α)} (b : List (String × α)),
      lookupPath p a = none → lookupPath p (a ++ b) = lookupPath p b := by
  intro a
  induction a with
  | nil => intro b _; rfl
  | cons qw rest ih =>
    obtain ⟨q, w⟩ := qw
    intro b h
    simp only [lookupPath] at h ⊢
    by_cases hq : q = p
    · rw [if_pos hq] at h; cases h
    · rw [if_neg hq] at h ⊢
      exact ih b h

theorem lookupPath_append_some {α : Type} {p : String} {v : α} :
    ∀ {a : List (String × α)} (b : List (String × α)),
      lookupPath p a = some v → lookupPath p (a ++ b) = some v := by
  intro a
  induction a with
  | nil => intro b h; simp [lookupPath] at h
  | cons qw rest ih =>
    obtain ⟨q, w⟩ := qw
    intro b h
    simp only [lookupPath] at h ⊢
    by_cases hq : q = p
    · rw [if_pos hq] at h ⊢; exact h
    · rw [if_neg hq] at h ⊢
      exact ih b h

/-! Shape of the outputs of the CIPD comparison and of the per-path step. -/

theorem cipdInner_ok_mem {path : String} {op : CipdPackage} :
    ∀ {l : List CipdPackage} {cs : List Changed}, cipdInner path op l = Except.ok cs →
      ∀ c ∈ cs, ∃ pkg ov nv, c = Changed.cipd ⟨path, pkg, ov, nv⟩ ∧ ov ≠ nv := by
  intro l
  induction l with
  | nil =>
    intro cs h c hc
    simp only [cipdInner] at h
    cases h
    cases hc
  | cons np rest ih =>
    intro cs h c hc
    simp only [cipdInner] at h
    cases h1 : _RemoveStringPrefix op.version "version:" with
    | error err => simp only [h1] at h; cases h
    | ok ov =>
      simp only [h1] at h
      cases h2 : _RemoveStringPrefix np.version "version:" with
      | error err => simp only [h2] at h; cases h
      | ok nv =>
        simp only [h2] at h
        cases h3 : cipdInner path op rest with
        | error err => simp only [h3] at h; cases h
        | ok tl =>
          simp only [h3] at h
          by_cases hcond : op.package = np.package ∧ ov ≠ nv
          · rw [if_pos hcond] at h
            cases h
            rcases List.mem_cons.mp hc with he | hm
            · exact ⟨op.package, ov, nv, he, hcond.2⟩
            · exact ih h3 c hm
          · rw [if_neg hcond] at h
            cases h
            exact ih h3 c hc

theorem cipdOuter_ok_mem {path : String} {new_pkgs : List CipdPackage} :
    ∀ {l : List CipdPackage} {cs : List Changed}, cipdOuter path new_pkgs l = Except.ok cs →
      ∀ c ∈ cs, ∃ pkg ov nv, c = Changed.cipd ⟨path, pkg, ov, nv⟩ ∧ ov ≠ nv := by
  intro l
  induction l with
  | nil =>
    intro cs h c hc
    simp only [cipdOuter] at h
    cases h
    cases hc
  | cons op rest ih =>
    intro cs h c hc
    simp only [cipdOuter] at h
    cases h1 : cipdInner path op new_pkgs with
    | error err => simp only [h1] at h; cases h
    | ok hd =>
      simp only [h1] at h
      cases h2 : cipdOuter path new_pkgs rest with
      | error err => simp only [h2] at h; cases h
      | ok tl =>
        simp only [h2] at h
        cases h
        rcases List.mem_append.mp hc with hm | hm
        · exact cipdInner_ok_mem h1 c hm
        · exact ih h2 c hm

theorem findCipd_ok_mem {path : String} {old_pkgs new_pkgs : List CipdPackage} {cs : List Changed}
    (h : _FindChangedCipdPackages path old_pkgs new_pkgs = Except.ok cs) :
    ∀ c ∈ cs, ∃ pkg ov nv, c = Changed.cipd ⟨path, pkg, ov, nv⟩ ∧ ov ≠ nv := by
  simp only [_FindChangedCipdPackages] at h
  by_cases hg : sameStringSet (old_pkgs.map CipdPackage.package) (new_pkgs.map CipdPackage.package) = true
  · rw [if_pos hg] at h
    exact cipdOuter_ok_mem h
  · rw [if_neg hg] at h
    cases h

theorem processEntry_ok_mem {head : String → String} {rem : List (String × Entry)}
    {path : String} {entry : Entry} {cs : List Changed}
    (h : processEntry head rem path entry = Except.ok cs) :
    ∀ c ∈ cs, changePath c = path ∧ nontrivialChange c := by
  intro c hc
  simp only [processEntry] at h
  cases hl : lookupPath path rem with
  | some cr =>
    simp only [hl] at h
    cases entry with
    | cipd w =>
      cases cr with
      | cipd cc =>
        obtain ⟨pkg, ov, nv, hce, hne⟩ := findCipd_ok_mem h c hc
        subst hce
        exact ⟨rfl, hne⟩
      | deps _ => simp only [] at h; cases h
    | deps w =>
      cases cr with
      | deps cc =>
        simp only [] at h
        by_cases hu : w.url = cc.url
        · rw [if_pos hu] at h
          by_cases hr : w.revision = cc.revision
          · rw [if_pos hr] at h
            cases h
            cases hc
          · rw [if_neg hr] at h
            cases h
            rcases List.mem_cons.mp hc with he | hm
            · subst he
              exact ⟨rfl, hr⟩
            · cases hm
        · rw [if_neg hu] at h
          cases h
      | cipd _ => simp only [] at h; cases h
  | none =>
    simp only [hl] at h
    cases entry with
    | deps w =>
      simp only [] at h
      by_cases hr : w.revision = head w.url
      · rw [if_pos hr] at h
        cases h
        cases hc
      · rw [if_neg hr] at h
        cases h
        rcases List.mem_cons.mp hc with he | hm
        · subst he
          exact ⟨rfl, hr⟩
        · cases hm
    | cipd _ => simp only [] at h; cases h

/-! Facts about the `CalculateChangedDeps` loop. -/

theorem loop_not_ok {head : String → String} {skip : List String}
    {rem : List (String × Entry)} {p : String} {e : Entry} :
    ∀ {entries : List (String × Entry)}, (p, e) ∈ entries → p ∉ skip →
      (∀ cs, processEntry head rem p e ≠ Except.ok cs) →
      ∀ l, changedDepsLoop head skip rem entries ≠ Except.ok l := by
  intro entries
  induction entries with
  | nil => intro hm; cases hm
  | cons qf rest ih =>
    obtain ⟨q, f⟩ := qf
    intro hm hskip herr l h
    simp only [changedDepsLoop] at h
    by_cases hq : q ∈ skip
    · rw [if_pos hq] at h
      rcases List.mem_cons.mp hm with he | hm2
      · cases he
        exact hskip hq
      · exact ih hm2 hskip herr l h
    · rw [if_neg hq] at h
      cases hp : processEntry head rem q f with
      | error err => simp only [hp] at h; cases h
      | ok cs =>
        simp only [hp] at h
        rcases List.mem_cons.mp hm with he | hm2
        · cases he
          exact herr cs hp
        · cases hrest : changedDepsLoop head skip rem rest with
          | error err => simp only [hrest] at h; cases h
          | ok tl => exact ih hm2 hskip herr tl hrest

theorem loop_ok_mem {head : String → String} {skip : List String}
    {rem : List (String × Entry)} :
    ∀ {entries : List (String × Entry)} {l : List Changed},
      changedDepsLoop head skip rem entries = Except.ok l →
      ∀ c ∈ l, ∃ q f cs, (q, f) ∈ entries ∧ processEntry head rem q f = Except.ok cs ∧ c ∈ cs := by
  intro entries
  induction entries with
  | nil =>
    intro l h c hc
    simp only [changedDepsLoop] at h
    cases h
    cases hc
  | cons qf rest ih =>
    obtain ⟨q, f⟩ := qf
    intro l h c hc
    simp only [changedDepsLoop] at h
    by_cases hq : q ∈ skip
    · rw [if_pos hq] at h
      obtain ⟨q2, f2, cs, hmem, hp, hcs⟩ := ih h c hc
      exact ⟨q2, f2, cs, List.mem_cons_of_mem _ hmem, hp, hcs⟩
    · rw [if_neg hq] at h
      cases hp : processEntry head rem q f with
      | error err => simp only [hp] at h; cases h
      | ok cs0 =>
        simp only [hp] at h
        cases hrest : changedDepsLoop head skip rem rest with
        | error err => simp only [hrest] at h; cases h
        | ok tl =>
          simp only [hrest] at h
          cases h
          rcases List.mem_append.mp hc with hm | hm
          · exact ⟨q, f, cs0, List.mem_cons_self _ _, hp, hm⟩
          · obtain ⟨q2, f2, cs, hmem, hp2, hcs⟩ := ih hrest c hm
            exact ⟨q2, f2, cs, List.mem_cons_of_mem _ hmem, hp2, hcs⟩

theorem loop_ok_path {head : String → String} {skip : List String}
    {rem : List (String × Entry)} {entries : List (String × Entry)} {l : List Changed}
    (h : changedDepsLoop head skip rem entries = Except.ok l) :
    ∀ c ∈ l, changePath c ∈ entries.map Prod.fst := by
  intro c hc
  obtain ⟨q, f, cs, hmem, hp, hcs⟩ := loop_ok_mem h c hc
  have hcp := (processEntry_ok_mem hp c hcs).1
  rw [hcp]
  exact List.mem_map.mpr ⟨(q, f), hmem, rfl⟩

theorem loop_filter {head : String → String} {skip : List String}
    {rem : List (String × Entry)} {p : String} {e : Entry} :
    ∀ {entries : List (String × Entry)} {l : List Changed},
      (entries.map Prod.fst).Nodup → (p, e) ∈ entries → p ∉ skip →
      changedDepsLoop head skip rem entries = Except.ok l →
      ∃ cs, processEntry head rem p e = Except.ok cs ∧
        l.filter (fun c => decide (changePath c = p)) = cs := by
  intro entries
  induction entries with
  | nil => intro l _ hm; cases hm
  | cons qf rest ih =>
    obtain ⟨q, f⟩ := qf
    intro l hn hm hskip h
    simp only [List.map_cons, List.nodup_cons] at hn
    simp only [changedDepsLoop] at h
    by_cases hq : q ∈ skip
    · rw [if_pos hq] at h
      rcases List.mem_cons.mp hm with he | hm2
      · cases he
        exact absurd hq hskip
      · exact ih hn.2 hm2 hskip h
    · rw [if_neg hq] at h
      cases hp : processEntry head rem q f with
      | error err => simp only [hp] at h; cases h
      | ok cs0 =>
        simp only [hp] at h
        cases hrest : changedDepsLoop head skip rem rest with
        | error err => simp only [hrest] at h; cases h
        | ok tl =>
          simp only [hrest] at h
          cases h
          rcases List.mem_cons.mp hm with he | hm2
          · cases he
            refine ⟨cs0, hp, ?_⟩
            rw [List.filter_append]
            have h1 : cs0.filter (fun c => decide (changePath c = p)) = cs0 :=
              List.filter_eq_self.mpr (fun c hc => by
                simp [(processEntry_ok_mem hp c hc).1])
            have h2 : tl.filter (fun c => decide (changePath c = p)) = [] :=
              List.filter_eq_nil_iff.mpr (fun c hc => by
                have hcp := loop_ok_path hrest c hc
                simp only [decide_eq_true_eq]
                intro hce
                exact hn.1 (hce ▸ hcp))
            rw [h1, h2, List.append_nil]
          · have hpmem : p ∈ rest.map Prod.fst := List.mem_map.mpr ⟨(p, e), hm2, rfl⟩
            have hqp : q ≠ p := fun he2 => hn.1 (he2 ▸ hpmem)
            obtain ⟨cs, hpe, hfil⟩ := ih hn.2 hm2 hskip hrest
            refine ⟨cs, hpe, ?_⟩
            rw [List.filter_append, hfil]
            have h1 : cs0.filter (fun c => decide (changePath c = p)) = [] :=
              List.filter_eq_nil_iff.mpr (fun c hc => by
                have hcp := (processEntry_ok_mem hp c hc).1
                simp only [decide_eq_true_eq]
                intro hce
                exact hqp (by rw [← hcp, hce]))
            rw [h1, List.nil_append]

theorem loop_ok_nil {head : String → String} {rem : List (String × Entry)} :
    ∀ {entries : List (String × Entry)},
      (∀ pe ∈ entries, processEntry head rem pe.1 pe.2 = Except.ok []) →
      changedDepsLoop head [] rem entries = Except.ok [] := by
  intro entries
  induction entries with
  | nil => intro _; rfl
  | cons qf rest ih =>
    obtain ⟨q, f⟩ := qf
    intro hall
    have hp : processEntry head rem q f = Except.ok [] := hall (q, f) (List.mem_cons_self _ _)
    have hr : changedDepsLoop head [] rem rest = Except.ok [] :=
      ih (fun pe hpe => hall pe (List.mem_cons_of_mem _ hpe))
    simp only [changedDepsLoop, hp, hr]
    rfl

/-! Self-comparison facts for the CIPD loops (used for the self-diff law). -/

theorem sameStringSet_self (xs : List String) : sameStringSet xs xs = true := by
  simp [sameStringSet, List.all_eq_true]

theorem removePrefix_ok {v : String} (h : pyStartsWith v "version:" = true) :
    _RemoveStringPrefix v "version:" = Except.ok (stripVersion v) := by
  simp [ _RemoveStringPrefix, stripVersion, h]

theorem cipdInner_self {path : String} {op : CipdPackage}
    (hop : pyStartsWith op.version "version:" = true) :
    ∀ {l : List CipdPackage},
      (∀ np ∈ l, pyStartsWith np.version "version:" = true) →
      (∀ np ∈ l, op.package = np.package → op.version = np.version) →
      cipdInner path op l = Except.ok [] := by
  intro l
  induction l with
  | nil => intro _ _; rfl
  | cons np rest ih =>
    intro hall heq
    have h1 := removePrefix_ok hop
    have h2 := removePrefix_ok (hall np (List.mem_cons_self _ _))
    have hrec := ih (fun x hx => hall x (List.mem_cons_of_mem _ hx))
      (fun x hx hpk => heq x (List.mem_cons_of_mem _ hx) hpk)
    simp only [cipdInner, h1, h2, hrec]
    have hno : ¬(op.package = np.package ∧ stripVersion op.version ≠ stripVersion np.version) := by
      rintro ⟨hpk, hver⟩
      exact hver (congrArg stripVersion (heq np (List.mem_cons_self _ _) hpk))
    rw [if_neg hno]

theorem cipdOuter_self {path : String} {pkgs : List CipdPackage}
    (hall : ∀ np ∈ pkgs, pyStartsWith np.version "version:" = true)
    (hnodup : (pkgs.map CipdPackage.package).Nodup) :
    ∀ {l : List CipdPackage}, (∀ op ∈ l, op ∈ pkgs) →
      cipdOuter path pkgs l = Except.ok [] := by
  intro l
  induction l with
  | nil => intro _; rfl
  | cons op rest ih =>
    intro hsub
    have hopm : op ∈ pkgs := hsub op (List.mem_cons_self _ _)
    have hin : cipdInner path op pkgs = Except.ok [] :=
      cipdInner_self (hall op hopm) hall (fun np hnp hpk => by
        have := List.inj_on_of_nodup_map hnodup hopm hnp hpk
        rw [this])
    have hrec := ih (fun x hx => hsub x (List.mem_cons_of_mem _ hx))
    simp only [cipdOuter, hin, hrec]
    rfl

theorem processEntry_self {head : String → String} {idx : List (String × Entry)}
    {p : String} {e : Entry} (hn : (idx.map Prod.fst).Nodup) (hm : (p, e) ∈ idx)
    (hwf : wellFormedEntry e = true) :
    processEntry head idx p e = Except.ok [] := by
  have hl : lookupPath p idx = some e := lookupPath_eq_of_mem hn hm
  simp only [processEntry, hl]
  cases e with
  | deps w => simp
  | cipd w =>
    simp only [wellFormedEntry, Bool.and_eq_true, decide_eq_true_eq, List.all_eq_true] at hwf
    simp only [_FindChangedCipdPackages, sameStringSet_self, if_true]
    exact cipdOuter_self hwf.2 hwf.1 (fun x hx => hx)

/-! The per-package characterization of `_FindChangedCipdPackages`. -/

theorem cipdInner_char {path : String} {op : CipdPackage}
    (hop : pyStartsWith op.version "version:" = true) :
    ∀ {l : List CipdPackage},
      (∀ np ∈ l, pyStartsWith np.version "version:" = true) →
      (l.map CipdPackage.package).Nodup →
      cipdInner path op l = Except.ok ((specCipdChange path l op).toList) := by
  intro l
  induction l with
  | nil => intro _ _; rfl
  | cons np rest ih =>
    intro hall hnodup
    simp only [List.map_cons, List.nodup_cons] at hnodup
    have h1 := removePrefix_ok hop
    have h2 := removePrefix_ok (hall np (List.mem_cons_self _ _))
    have hrec := ih (fun x hx => hall x (List.mem_cons_of_mem _ hx)) hnodup.2
    simp only [cipdInner, h1, h2, hrec]
    by_cases hpk : np.package = op.package
    · have hfind : (np :: rest).find? (fun x => decide (x.package = op.package)) = some np := by
        simp [List.find?_cons_of_pos, hpk]
      have hnone : rest.find? (fun x => decide (x.package = op.package)) = none := by
        rw [List.find?_eq_none]
        intro x hx
        simp only [decide_eq_true_eq]
        intro hxe
        exact hnodup.1 (List.mem_map.mpr ⟨x, hx, hxe.trans hpk.symm⟩)
      by_cases hv : stripVersion op.version = stripVersion np.version
      · have hno : ¬(op.package = np.package ∧ stripVersion op.version ≠ stripVersion np.version) :=
          fun hc => hc.2 hv
        rw [if_neg hno]
        simp [specCipdChange, hfind, hnone, if_pos hv]
      · have hyes : op.package = np.package ∧ stripVersion op.version ≠ stripVersion np.version :=
          ⟨hpk.symm, hv⟩
        rw [if_pos hyes]
        simp [specCipdChange, hfind, hnone, if_neg hv, hpk]
    · have hfind : (np :: rest).find? (fun x => decide (x.package = op.package)) =
          rest.find? (fun x => decide (x.package = op.package)) := by
        rw [List.find?_cons_of_neg]
        simp [hpk]
      have hno : ¬(op.package = np.package ∧ stripVersion op.version ≠ stripVersion np.version) :=
        fun hc => hpk hc.1.symm
      rw [if_neg hno]
      simp [specCipdChange, hfind]

theorem cipdOuter_char {path : String} {new_pkgs : List CipdPackage}
    (hnew : ∀ np ∈ new_pkgs, pyStartsWith np.version "version:" = true)
    (hnodup : (new_pkgs.map CipdPackage.package).Nodup) :
    ∀ {l : List CipdPackage},
      (∀ op ∈ l, pyStartsWith op.version "version:" = true) →
      cipdOuter path new_pkgs l = Except.ok (l.filterMap (specCipdChange path new_pkgs)) := by
  intro l
  induction l with
  | nil => intro _; rfl
  | cons op rest ih =>
    intro hall
    have hin := @cipdInner_char path op (hall op (List.mem_cons_self _ _)) new_pkgs hnew hnodup
    have hrec := ih (fun x hx => hall x (List.mem_cons_of_mem _ hx))
    simp only [cipdOuter, hin, hrec]
    rw [List.filterMap_cons]
    cases specCipdChange path new_pkgs op <;> simp [Option.toList]

/-! Facts about `addDepsEntries` and the platform layering. -/

theorem addDeps_prefix : ∀ {deps : List (String × RawDep)} {acc idx : List (String × Entry)},
    addDepsEntries deps acc = Except.ok idx → ∃ t, idx = acc ++ t := by
  intro deps
  induction deps with
  | nil =>
    intro acc idx h
    cases h
    exact ⟨[], by simp⟩
  | cons pd rest ih =>
    obtain ⟨p, d⟩ := pd
    intro acc idx h
    simp only [addDepsEntries] at h
    by_cases hs : (lookupPath p acc).isSome = true
    · rw [if_pos hs] at h
      exact ih h
    · rw [if_neg hs] at h
      cases hp : parseDep p d with
      | error err => simp only [hp] at h; cases h
      | ok entry =>
        simp only [hp] at h
        obtain ⟨t, ht⟩ := ih h
        exact ⟨(p, entry) :: t, by rw [ht, List.append_assoc]; rfl⟩

theorem addDeps_preserve {p : String} {e : Entry} {deps : List (String × RawDep)}
    {acc idx : List (String × Entry)} (hk : lookupPath p acc = some e)
    (h : addDepsEntries deps acc = Except.ok idx) : lookupPath p idx = some e := by
  obtain ⟨t, ht⟩ := addDeps_prefix h
  rw [ht]
  exact lookupPath_append_some _ hk

theorem addPlat_preserve {p : String} {e : Entry}
    {deps_os : List (String × List (String × RawDep))} :
    ∀ {plats : List String} {acc idx : List (String × Entry)},
      lookupPath p acc = some e → addPlatformSections deps_os plats acc = Except.ok idx →
      lookupPath p idx = some e := by
  intro plats
  induction plats with
  | nil =>
    intro acc idx hk h
    cases h
    exact hk
  | cons pl rest ih =>
    intro acc idx hk h
    simp only [addPlatformSections] at h
    cases ha : addDepsEntries ((lookupPath pl deps_os).getD []) acc with
    | error err => simp only [ha] at h; cases h
    | ok r2 =>
      simp only [ha] at h
      exact ih (addDeps_preserve hk ha) h

theorem addDeps_keys : ∀ {deps : List (String × RawDep)} {acc idx : List (String × Entry)},
    (deps.map Prod.fst).Nodup → (∀ q ∈ deps.map Prod.fst, lookupPath q acc = none) →
    addDepsEntries deps acc = Except.ok idx →
    idx.map Prod.fst = acc.map Prod.fst ++ deps.map Prod.fst := by
  intro deps
  induction deps with
  | nil =>
    intro acc idx _ _ h
    cases h
    simp
  | cons pd rest ih =>
    obtain ⟨p, d⟩ := pd
    intro acc idx hn hnone h
    simp only [List.map_cons, List.nodup_cons] at hn
    have hp0 : lookupPath p acc = none := hnone p (by simp)
    simp only [addDepsEntries] at h
    have hs : ¬((lookupPath p acc).isSome = true) := by simp [hp0]
    rw [if_neg hs] at h
    cases hp : parseDep p d with
    | error err => simp only [hp] at h; cases h
    | ok entry =>
      simp only [hp] at h
      have hnone2 : ∀ q ∈ rest.map Prod.fst, lookupPath q (acc ++ [(p, entry)]) = none := by
        intro q hq
        rw [lookupPath_append_none _ (hnone q (by simp [hq]))]
        have hqp : ¬(p = q) := fun he => hn.1 (he ▸ hq)
        simp [lookupPath, hqp]
      have := ih hn.2 hnone2 h
      rw [this]
      simp [List.map_append]

theorem addDeps_found {p : String} {v : RawDep} :
    ∀ {deps : List (String × RawDep)} {acc idx : List (String × Entry)},
      lookupPath p deps = some v → lookupPath p acc = none →
      addDepsEntries deps acc = Except.ok idx →
      ∃ e, parseDep p v = Except.ok e ∧ lookupPath p idx = some e := by
  intro deps
  induction deps with
  | nil => intro acc idx hf; simp [lookupPath] at hf
  | cons qw rest ih =>
    obtain ⟨q, w⟩ := qw
    intro acc idx hf hacc h
    simp only [lookupPath] at hf
    simp only [addDepsEntries] at h
    by_cases hq : q = p
    · rw [if_pos hq] at hf
      have hwv : w = v := by injection hf
      rw [hq, hwv] at h
      have hs : ¬((lookupPath p acc).isSome = true) := by simp [hacc]
      rw [if_neg hs] at h
      cases hp : parseDep p v with
      | error err => simp only [hp] at h; cases h
      | ok e =>
        simp only [hp] at h
        refine ⟨e, rfl, ?_⟩
        have hlk : lookupPath p (acc ++ [(p, e)]) = some e := by
          rw [lookupPath_append_none _ hacc]
          simp [lookupPath]
        exact addDeps_preserve hlk h
    · rw [if_neg hq] at hf
      by_cases hs : (lookupPath q acc).isSome = true
      · rw [if_pos hs] at h
        exact ih hf hacc h
      · rw [if_neg hs] at h
        cases hp : parseDep q w with
        | error err => simp only [hp] at h; cases h
        | ok e =>
          simp only [hp] at h
          have hacc2 : lookupPath p (acc ++ [(q, e)]) = none := by
            rw [lookupPath_append_none _ hacc]
            simp [lookupPath, hq]
          exact ih hf hacc2 h

/-! Facts about the `split('@')` model. -/

theorem splitCharList_ne_nil {sep : Char} : ∀ (l : List Char), splitCharList sep l ≠ [] := by
  intro l
  cases l with
  | nil => simp [splitCharList]
  | cons c rest =>
    cases hres : splitCharList sep rest with
    | nil =>
      simp only [splitCharList, hres]
      split <;> simp
    | cons h t =>
      simp only [splitCharList, hres]
      split <;> simp

theorem splitCharList_no_sep {sep : Char} : ∀ {l : List Char}, sep ∉ l →
    splitCharList sep l = [l] := by
  intro l
  induction l with
  | nil => intro _; rfl
  | cons c rest ih =>
    intro hm
    have hc : ¬(c = sep) := fun he => hm (he ▸ List.mem_cons_self _ _)
    have ih2 := ih (fun hr => hm (List.mem_cons_of_mem _ hr))
    simp only [splitCharList, ih2]
    rw [if_neg hc]

theorem splitCharList_sep_append {sep : Char} : ∀ {u : List Char}, sep ∉ u → ∀ (t : List Char),
    splitCharList sep (u ++ sep :: t) = u :: splitCharList sep t := by
  intro u
  induction u with
  | nil =>
    intro _ t
    cases hres : splitCharList sep t with
    | nil => exact absurd hres (splitCharList_ne_nil t)
    | cons h t2 =>
      simp only [List.nil_append, splitCharList, hres]
      simp
  | cons c crest ih =>
    intro hm t
    have hc : ¬(c = sep) := fun he => hm (he ▸ List.mem_cons_self _ _)
    have ih2 := ih (fun hr => hm (List.mem_cons_of_mem _ hr)) t
    simp only [List.cons_append, splitCharList, List.append_eq, ih2]
    rw [if_neg hc]

theorem splitCharList_length {sep : Char} : ∀ (l : List Char),
    (splitCharList sep l).length = l.count sep + 1 := by
  intro l
  induction l with
  | nil => rfl
  | cons c rest ih =>
    cases hres : splitCharList sep rest with
    | nil => exact absurd hres (splitCharList_ne_nil rest)
    | cons h t =>
      have ihl : (h :: t).length = rest.count sep + 1 := hres ▸ ih
      simp only [splitCharList, hres]
      by_cases hc : c = sep
      · rw [if_pos hc]
        simp only [List.length_cons] at ihl ⊢
        simp [List.count_cons, hc, ihl]
      · rw [if_neg hc]
        simp only [List.length_cons] at ihl ⊢
        have hbeq : (c == sep) = false := by simp [hc]
        simp [List.count_cons, hbeq, ihl]

/-! String-append facts used for the commit-message layout. -/

theorem strData_append (a b : String) : (a ++ b).data = a.data ++ b.data := rfl

theorem append_ne {p q : String} (x y : String) (hlen : p.data.length = q.data.length)
    (hne : p ≠ q) : p ++ x ≠ q ++ y := by
  intro h
  have hd : p.data ++ x.data = q.data ++ y.data := by
    have h2 := congrArg String.data h
    rwa [strData_append, strData_append] at h2
  exact hne (strEq_of_data_eq ((List.append_inj hd hlen).1))

/-! Projections of the sort key. -/

theorem keyOf_fst (c : Changed) : (keyOf c).1 = changePath c := by cases c <;> rfl

theorem keyOf_snd1 (c : Changed) : (keyOf c).2.1 = changeKey2 c := by cases c <;> rfl

theorem sorted_claim {l : List Changed} (h : List.Sorted changedOrder l) :
    l.Pairwise (fun a b => lexLe (changePath a) (changePath b) = true ∧
      (changePath a = changePath b → isCipdChange a = true → isCipdChange b = true →
        lexLe (changeKey2 a) (changeKey2 b) = true)) := by
  refine h.imp ?_
  intro a b hab
  have hab2 : tupleLe (keyOf a) (keyOf b) = true := hab
  simp only [tupleLe, Bool.or_eq_true, Bool.and_eq_true, decide_eq_true_eq] at hab2
  constructor
  · rcases hab2 with h1 | ⟨he, _⟩
    · rw [keyOf_fst, keyOf_fst] at h1
      simp [lexLe, h1]
    · rw [keyOf_fst, keyOf_fst] at he
      simp [lexLe, he]
  · intro hpe _ _
    rcases hab2 with h1 | ⟨_, hrest⟩
    · rw [keyOf_fst, keyOf_fst, hpe, charListLt_irrefl] at h1
      cases h1
    · rcases hrest with h2 | ⟨he2, _⟩
      · rw [keyOf_snd1, keyOf_snd1] at h2
        simp [lexLe, h2]
      · rw [keyOf_snd1, keyOf_snd1] at he2
        simp [lexLe, he2]

/-! Line-shape facts for the commit-message blocks. -/

theorem pfx_self_append : ∀ (a b : List Char), listIsPfx a (a ++ b) = true := by
  intro a b
  induction a with
  | nil => rfl
  | cons c rest ih => simp [listIsPfx, ih]

theorem append_ne_of_not_pfx {p t : String} (x : String)
    (h : listIsPfx p.data t.data = false) : p ++ x ≠ t := by
  intro he
  have hd : p.data ++ x.data = t.data := by
    have h2 := congrArg String.data he
    rwa [strData_append] at h2
  have hp : listIsPfx p.data (p.data ++ x.data) = true := pfx_self_append p.data x.data
  rw [hd, h] at hp
  cases hp

theorem headerLines_ne (ru : ChromiumRevisionUpdate) (cp np : Nat) :
    ∀ s ∈ commitHeaderLines ru cp np,
      s ≠ "No dependencies changed." ∧ s ≠ "Changed dependencies:" := by
  intro s hs
  simp only [commitHeaderLines, List.mem_cons, List.not_mem_nil, or_false] at hs
  rcases hs with rfl | rfl | rfl | rfl | rfl
  all_goals
    exact ⟨append_ne_of_not_pfx _ (by decide), append_ne_of_not_pfx _ (by decide)⟩

theorem clangLines_ne (ri : String) (clang : ClangChange) :
    ∀ s ∈ clangBlockLines ri clang,
      s ≠ "No dependencies changed." ∧ s ≠ "Changed dependencies:" := by
  intro s hs
  simp only [clangBlockLines] at hs
  by_cases hcl : clang.current_rev = clang.new_rev
  · rw [if_pos hcl] at hs
    rw [List.mem_singleton] at hs
    subst hs
    exact ⟨by decide, by decide⟩
  · rw [if_neg hcl] at hs
    simp only [List.mem_cons, List.not_mem_nil, or_false] at hs
    rcases hs with rfl | rfl
    all_goals
      exact ⟨append_ne_of_not_pfx _ (by decide), append_ne_of_not_pfx _ (by decide)⟩

theorem trailerLines_ne (ga tbr : String) :
    ∀ s ∈ commitTrailerLines ga tbr,
      s ≠ "No dependencies changed." ∧ s ≠ "Changed dependencies:" := by
  intro s hs
  simp only [commitTrailerLines, List.mem_cons, List.not_mem_nil, or_false] at hs
  rcases hs with rfl | rfl | rfl
  · exact ⟨append_ne_of_not_pfx _ (by decide), append_ne_of_not_pfx _ (by decide)⟩
  · exact ⟨by decide, by decide⟩
  · exact ⟨by decide, by decide⟩

/-! Fixed collaborator stubs and concrete inputs used by the witnesses. -/

/-- A HEAD resolver stub returning a fixed revision. -/
def headConst (r : String) : String → String := fun _ => r

/-- A HEAD resolver stub (never consulted in the shared-path examples). -/
def headStub : String → String := fun _ => ""

/-- C1: for a path present in both indexes as a git `DepsEntry`, differing
urls make the per-path step fail with the url-mismatch assertion and the
whole diff abort with no result; with equal urls and differing revisions
the diff emits exactly one `ChangedDep` for that path, carrying the local
revision as current and the remote revision as new. -/
theorem shared_git_dependency_diff
    (head : String → String) (skip : List String)
    (locIdx remIdx : List (String × Entry)) (p pa pb u u2 r1 r2 : String)
    (hl : lookupPath p locIdx = some (Entry.deps ⟨pa, u, r1⟩))
    (hr : lookupPath p remIdx = some (Entry.deps ⟨pb, u2, r2⟩))
    (hskip : p ∉ skip)
    (hnodup : (locIdx.map Prod.fst).Nodup) :
    (u ≠ u2 →
      processEntry head remIdx p (Entry.deps ⟨pa, u, r1⟩) =
          Except.error (Err.urlMismatch p u u2) ∧
      ∀ l, CalculateChangedDepsFromEntries head skip locIdx remIdx ≠ Except.ok l) ∧
    (u = u2 → r1 ≠ r2 → ∀ l,
      CalculateChangedDepsFromEntries head skip locIdx remIdx = Except.ok l →
      l.filter (fun c => decide (changePath c = p)) = [Changed.dep ⟨p, u, r1, r2⟩]) := by
  constructor
  · intro hu
    have hpe : processEntry head remIdx p (Entry.deps ⟨pa, u, r1⟩) =
        Except.error (Err.urlMismatch p u u2) := by
      simp only [processEntry, hr]
      rw [if_neg hu]
    refine ⟨hpe, ?_⟩
    intro l hok
    have hnotok := loop_not_ok (lookupPath_mem hl) hskip
      (fun cs hcs => by rw [hpe] at hcs; cases hcs)
    simp only [CalculateChangedDepsFromEntries] at hok
    cases hloop : changedDepsLoop head skip remIdx locIdx with
    | error err => simp only [hloop] at hok; cases hok
    | ok result => exact hnotok result hloop
  · intro hu hrne l hok
    subst hu
    simp only [CalculateChangedDepsFromEntries] at hok
    cases hloop : changedDepsLoop head skip remIdx locIdx with
    | error err => simp only [hloop] at hok; cases hok
    | ok result =>
      simp only [hloop] at hok
      cases hok
      obtain ⟨cs, hpe, hfil⟩ := loop_filter hnodup (lookupPath_mem hl) hskip hloop
      have hpe2 : processEntry head remIdx p (Entry.deps ⟨pa, u, r1⟩) =
          Except.ok [Changed.dep ⟨p, u, r1, r2⟩] := by
        simp only [processEntry, hr, if_true]
        rw [if_neg hrne]
      have hcs : cs = [Changed.dep ⟨p, u, r1, r2⟩] := by
        rw [hpe2] at hpe
        injection hpe with h2
        exact h2.symm
      have hperm := (List.perm_insertionSort changedOrder result).filter
        (fun c => decide (changePath c = p))
      rw [hfil, hcs] at hperm
      exact List.perm_singleton.mp hperm

/-- C1 witness: the spec example, local `src/foo` at revision 111 and
remote `src/foo` at revision 222 with the same url. -/
theorem shared_git_dependency_diff_witness :
    CalculateChangedDepsFromEntries headStub []
        [("src/foo", Entry.deps ⟨"src/foo", "https://x/foo", "111"⟩)]
        [("src/foo", Entry.deps ⟨"src/foo", "https://x/foo", "222"⟩)] =
      Except.ok [Changed.dep ⟨"src/foo", "https://x/foo", "111", "222"⟩] ∧
    List.filter (fun c => decide (changePath c = "src/foo"))
        [Changed.dep ⟨"src/foo", "https://x/foo", "111", "222"⟩] =
      [Changed.dep ⟨"src/foo", "https://x/foo", "111", "222"⟩] := by
  refine ⟨by decide, ?_⟩
  exact (shared_git_dependency_diff headStub []
      [("src/foo", Entry.deps ⟨"src/foo", "https://x/foo", "111"⟩)]
      [("src/foo", Entry.deps ⟨"src/foo", "https://x/foo", "222"⟩)]
      "src/foo" "src/foo" "src/foo" "https://x/foo" "https://x/foo" "111" "222"
      (by decide) (by decide) (by decide) (by decide)).2 rfl (by decide)
    [Changed.dep ⟨"src/foo", "https://x/foo", "111", "222"⟩] (by decide)

/-- C2: diffing a well-formed index against itself with an empty skip set
returns the empty change list. -/
theorem self_diff_empty (head : String → String) (A : List (String × Entry))
    (hwf : wellFormedIndex A = true) :
    CalculateChangedDepsFromEntries head [] A A = Except.ok [] := by
  simp only [wellFormedIndex, Bool.and_eq_true, decide_eq_true_eq, List.all_eq_true] at hwf
  have hloop : changedDepsLoop head [] A A = Except.ok [] :=
    loop_ok_nil (fun pe hpe =>
      processEntry_self hwf.1 (by rw [Prod.mk.eta]; exact hpe) (hwf.2 pe hpe))
  simp only [CalculateChangedDepsFromEntries, hloop]
  rfl

/-- A concrete well-formed index with one git and one CIPD entry. -/
def selfDiffIndex : List (String × Entry) :=
  [("src/a", Entry.deps ⟨"src/a", "https://a", "abc"⟩),
   ("src/b", Entry.cipd ⟨"src/b", [⟨"pkg/one", "version:1.0"⟩, ⟨"pkg/two", "version:2.0"⟩]⟩)]

/-- C2 witness: the self-diff of a concrete two-entry index is empty. -/
theorem self_diff_empty_witness :
    wellFormedIndex selfDiffIndex = true ∧
    CalculateChangedDepsFromEntries headStub [] selfDiffIndex selfDiffIndex = Except.ok [] :=
  ⟨by decide, self_diff_empty headStub selfDiffIndex (by decide)⟩

/-- C4: a path shared as CIPD entries with differing package-name sets
makes the package comparison fail with the set-mismatch assertion and the
whole diff abort with no partial result. -/
theorem cipd_package_set_mismatch
    (head : String → String) (skip : List String) (locIdx remIdx : List (String × Entry))
    (p pa pb : String) (old_pkgs new_pkgs : List CipdPackage)
    (hl : lookupPath p locIdx = some (Entry.cipd ⟨pa, old_pkgs⟩))
    (hr : lookupPath p remIdx = some (Entry.cipd ⟨pb, new_pkgs⟩))
    (hskip : p ∉ skip)
    (hset : sameStringSet (old_pkgs.map CipdPackage.package)
        (new_pkgs.map CipdPackage.package) = false) :
    _FindChangedCipdPackages p old_pkgs new_pkgs = Except.error (Err.packageSetMismatch p) ∧
    ∀ l, CalculateChangedDepsFromEntries head skip locIdx remIdx ≠ Except.ok l := by
  have hfind : _FindChangedCipdPackages p old_pkgs new_pkgs =
      Except.error (Err.packageSetMismatch p) := by
    simp only [_FindChangedCipdPackages]
    rw [if_neg (by simp [hset])]
  refine ⟨hfind, ?_⟩
  intro l hok
  have hpe : processEntry head remIdx p (Entry.cipd ⟨pa, old_pkgs⟩) =
      Except.error (Err.packageSetMismatch p) := by
    simp only [processEntry, hr, hfind]
  have hnotok := loop_not_ok (lookupPath_mem hl) hskip
    (fun cs hcs => by rw [hpe] at hcs; cases hcs)
  simp only [CalculateChangedDepsFromEntries] at hok
  cases hloop : changedDepsLoop head skip remIdx locIdx with
  | error err => simp only [hloop] at hok; cases hok
  | ok result => exact hnotok result hloop

/-- C4 witness: package sets \{a,b\} versus \{a,c\} on a shared path. -/
theorem cipd_package_set_mismatch_witness :
    _FindChangedCipdPackages "src/p" [⟨"a", "version:1"⟩, ⟨"b", "version:1"⟩]
        [⟨"a", "version:1"⟩, ⟨"c", "version:1"⟩] =
      Except.error (Err.packageSetMismatch "src/p") ∧
    CalculateChangedDepsFromEntries headStub []
        [("src/p", Entry.cipd ⟨"src/p", [⟨"a", "version:1"⟩, ⟨"b", "version:1"⟩]⟩)]
        [("src/p", Entry.cipd ⟨"src/p", [⟨"a", "version:1"⟩, ⟨"c", "version:1"⟩]⟩)] ≠
      Except.ok [] := by
  have h := cipd_package_set_mismatch headStub []
    [("src/p", Entry.cipd ⟨"src/p", [⟨"a", "version:1"⟩, ⟨"b", "version:1"⟩]⟩)]
    [("src/p", Entry.cipd ⟨"src/p", [⟨"a", "version:1"⟩, ⟨"c", "version:1"⟩]⟩)]
    "src/p" "src/p" "src/p" [⟨"a", "version:1"⟩, ⟨"b", "version:1"⟩]
    [⟨"a", "version:1"⟩, ⟨"c", "version:1"⟩] (by decide) (by decide) (by decide) (by decide)
  exact ⟨h.1, h.2 []⟩

/-- The ordering the engine documentation promises for the output list:
non-decreasing lexicographically by path, with ties among CIPD changes at
the same path broken by package name. -/
def claimOrdered (l : List Changed) : Prop :=
  l.Pairwise (fun a b => lexLe (changePath a) (changePath b) = true ∧
    (changePath a = changePath b → isCipdChange a = true → isCipdChange b = true →
      lexLe (changeKey2 a) (changeKey2 b) = true))

/-- C3: every successful diff output, at the index level and from raw
manifests, is sorted lexicographically by path with CIPD ties broken by
package name, and the diff is a pure function, so two runs on the same
inputs give the identical sequence. -/
theorem diff_output_sorted (head : String → String) (skip : List String) :
    (∀ (locIdx remIdx : List (String × Entry)) (l : List Changed),
      CalculateChangedDepsFromEntries head skip locIdx remIdx = Except.ok l →
      claimOrdered l) ∧
    (∀ (d1 d2 : DepsDict) (l : List Changed),
      CalculateChangedDeps head skip d1 d2 = Except.ok l → claimOrdered l) ∧
    (∀ (locIdx remIdx : List (String × Entry)),
      CalculateChangedDepsFromEntries head skip locIdx remIdx =
        CalculateChangedDepsFromEntries head skip locIdx remIdx) := by
  have key : ∀ (locIdx remIdx : List (String × Entry)) (l : List Changed),
      CalculateChangedDepsFromEntries head skip locIdx remIdx = Except.ok l →
      claimOrdered l := by
    intro li ri l h
    simp only [CalculateChangedDepsFromEntries] at h
    cases hloop : changedDepsLoop head skip ri li with
    | error err => simp only [hloop] at h; cases h
    | ok result =>
      simp only [hloop] at h
      cases h
      exact sorted_claim (List.sorted_insertionSort changedOrder result)
  refine ⟨key, ?_, fun _ _ => rfl⟩
  intro d1 d2 l h
  simp only [CalculateChangedDeps] at h
  cases h1 : BuildDepsentryDict d1 with
  | error e => simp only [h1] at h; cases h
  | ok a =>
    simp only [h1] at h
    cases h2 : BuildDepsentryDict d2 with
    | error e => simp only [h2] at h; cases h
    | ok b =>
      simp only [h2] at h
      exact key a b l h

/-- A local index listed out of path order (both paths absent remotely). -/
def unsortedLocalIndex : List (String × Entry) :=
  [("src/b", Entry.deps ⟨"src/b", "https://b", "1"⟩),
   ("src/a", Entry.deps ⟨"src/a", "https://a", "2"⟩)]

/-- The diff output for `unsortedLocalIndex` against an empty remote index
with the HEAD resolver returning `"h"`. -/
def sortedDiffOutput : List Changed :=
  [Changed.dep ⟨"src/a", "https://a", "2", "h"⟩,
   Changed.dep ⟨"src/b", "https://b", "1", "h"⟩]

/-- C3 witness: a two-entry diff whose loop order is b-then-a comes out
sorted a-then-b. -/
theorem diff_output_sorted_witness :
    CalculateChangedDepsFromEntries (headConst "h") [] unsortedLocalIndex [] =
      Except.ok sortedDiffOutput ∧
    claimOrdered sortedDiffOutput :=
  ⟨by decide,
   (diff_output_sorted (headConst "h") []).1 unsortedLocalIndex [] sortedDiffOutput (by decide)⟩

/-- C5: for a CIPD path whose package-name sets agree (names distinct,
versions all `version:`-prefixed), the comparison succeeds and returns,
in local package order, exactly one `ChangedCipdPackage` per local
package whose `version:`-stripped version differs from the remote
package of the same name, reporting the stripped versions. -/
theorem cipd_changed_packages_characterization
    (p : String) (old_pkgs new_pkgs : List CipdPackage)
    (hset : sameStringSet (old_pkgs.map CipdPackage.package)
        (new_pkgs.map CipdPackage.package) = true)
    (hnodup : (new_pkgs.map CipdPackage.package).Nodup)
    (hold : ∀ pk ∈ old_pkgs, pyStartsWith pk.version "version:" = true)
    (hnew : ∀ pk ∈ new_pkgs, pyStartsWith pk.version "version:" = true) :
    _FindChangedCipdPackages p old_pkgs new_pkgs =
      Except.ok (old_pkgs.filterMap (specCipdChange p new_pkgs)) := by
  simp only [_FindChangedCipdPackages]
  rw [if_pos hset]
  exact cipdOuter_char hnew hnodup hold

/-- C5 witness: the spec example, packages a/b with a bumped from
`version:1` to `version:2`, yields exactly `[⟨p, a, 1, 2⟩]`. -/
theorem cipd_changed_packages_characterization_witness :
    sameStringSet (List.map CipdPackage.package [⟨"a", "version:1"⟩, ⟨"b", "version:1"⟩])
        (List.map CipdPackage.package [⟨"a", "version:2"⟩, ⟨"b", "version:1"⟩]) = true ∧
    _FindChangedCipdPackages "src/p" [⟨"a", "version:1"⟩, ⟨"b", "version:1"⟩]
        [⟨"a", "version:2"⟩, ⟨"b", "version:1"⟩] =
      Except.ok [Changed.cipd ⟨"src/p", "a", "1", "2"⟩] := by
  refine ⟨by decide, ?_⟩
  rw [cipd_changed_packages_characterization "src/p"
    [⟨"a", "version:1"⟩, ⟨"b", "version:1"⟩] [⟨"a", "version:2"⟩, ⟨"b", "version:1"⟩]
    (by decide) (by decide) (by decide) (by decide)]
  decide

/-- C6: a local path absent from the remote index and not skipped is
resolved through the HEAD collaborator on its url; the diff output
contains one `ChangedDep` for that path exactly when `head url` differs
from the pinned revision, and no entry for it when they agree. -/
theorem local_only_dependency_head_resolution
    (head : String → String) (skip : List String)
    (locIdx remIdx : List (String × Entry)) (p pa u r : String)
    (hl : lookupPath p locIdx = some (Entry.deps ⟨pa, u, r⟩))
    (hr : lookupPath p remIdx = none)
    (hskip : p ∉ skip)
    (hnodup : (locIdx.map Prod.fst).Nodup) :
    ∀ l, CalculateChangedDepsFromEntries head skip locIdx remIdx = Except.ok l →
      l.filter (fun c => decide (changePath c = p)) =
        if head u = r then [] else [Changed.dep ⟨p, u, r, head u⟩] := by
  intro l hok
  simp only [CalculateChangedDepsFromEntries] at hok
  cases hloop : changedDepsLoop head skip remIdx locIdx with
  | error err => simp only [hloop] at hok; cases hok
  | ok result =>
    simp only [hloop] at hok
    cases hok
    obtain ⟨cs, hpe, hfil⟩ := loop_filter hnodup (lookupPath_mem hl) hskip hloop
    have hpe2 : processEntry head remIdx p (Entry.deps ⟨pa, u, r⟩) =
        Except.ok (if head u = r then [] else [Changed.dep ⟨p, u, r, head u⟩]) := by
      simp only [processEntry, hr]
      by_cases hh : head u = r
      · rw [if_pos hh.symm, if_pos hh]
      · rw [if_neg (fun he => hh he.symm), if_neg hh]
    have hcs : cs = (if head u = r then [] else [Changed.dep ⟨p, u, r, head u⟩]) := by
      rw [hpe2] at hpe
      injection hpe with h2
      exact h2.symm
    have hperm := (List.perm_insertionSort changedOrder result).filter
      (fun c => decide (changePath c = p))
    rw [hfil, hcs] at hperm
    by_cases hh : head u = r
    · rw [if_pos hh] at hperm ⊢
      exact List.perm_nil.mp hperm
    · rw [if_neg hh] at hperm ⊢
      exact List.perm_singleton.mp hperm

/-- A one-entry local index whose path is local to the manifest. -/
def localOnlyIndex : List (String × Entry) :=
  [("src/only", Entry.deps ⟨"src/only", "https://only", "111"⟩)]

/-- C6 witness: with HEAD returning the pinned revision 111, the diff
yields no entry for the local-only path. -/
theorem local_only_dependency_head_resolution_witness :
    CalculateChangedDepsFromEntries (headConst "111") [] localOnlyIndex [] = Except.ok [] ∧
    List.filter (fun c => decide (changePath c = "src/only")) ([] : List Changed) =
      (if headConst "111" "https://only" = "111" then []
       else [Changed.dep ⟨"src/only", "https://only", "111", headConst "111" "https://only"⟩]) :=
  ⟨by decide,
   local_only_dependency_head_resolution (headConst "111") [] localOnlyIndex []
     "src/only" "src/only" "https://only" "111" (by decide) rfl (by decide) (by decide)
     [] (by decide)⟩

/-- C7: the index is built from the base `deps` first and per-platform
sections only add paths not already present: with no platform sections
the index has exactly the base paths and is unaffected by `deps_os`
content, and for any platform list a path of the base `deps` keeps the
entry parsed from its base value. -/
theorem entry_index_platform_layering
    (deps : List (String × RawDep)) (os os2 : List (String × List (String × RawDep)))
    (platforms : List String) (p : String) (v : RawDep) :
    buildDepsentryDictWith [] ⟨deps, os⟩ = buildDepsentryDictWith [] ⟨deps, os2⟩ ∧
    ((deps.map Prod.fst).Nodup → ∀ idx, buildDepsentryDictWith [] ⟨deps, os⟩ = Except.ok idx →
      idx.map Prod.fst = deps.map Prod.fst) ∧
    (lookupPath p deps = some v → ∀ idx,
      buildDepsentryDictWith platforms ⟨deps, os⟩ = Except.ok idx →
      ∃ e, parseDep p v = Except.ok e ∧ lookupPath p idx = some e) := by
  refine ⟨?_, ?_, ?_⟩
  · simp only [buildDepsentryDictWith]
    cases h : addDepsEntries deps [] <;> rfl
  · intro hn idx h
    simp only [buildDepsentryDictWith] at h
    cases ha : addDepsEntries deps [] with
    | error e => simp only [ha] at h; cases h
    | ok base =>
      simp only [ha, addPlatformSections] at h
      cases h
      have := addDeps_keys hn
        (fun q _ => (rfl : lookupPath q ([] : List (String × Entry)) = none)) ha
      simpa using this
  · intro hf idx h
    simp only [buildDepsentryDictWith] at h
    cases ha : addDepsEntries deps [] with
    | error e => simp only [ha] at h; cases h
    | ok base =>
      simp only [ha] at h
      obtain ⟨e, hp, hlk⟩ := addDeps_found hf
        (rfl : lookupPath p ([] : List (String × Entry)) = none) ha
      exact ⟨e, hp, addPlat_preserve hlk h⟩

/-- A base `deps` dict with one path. -/
def layeringDeps : List (String × RawDep) := [("src/a", RawDep.str "https://a@1")]

/-- A `deps_os` dict whose `win` section both overrides `src/a` and adds
`src/b`. -/
def layeringOs : List (String × List (String × RawDep)) :=
  [("win", [("src/a", RawDep.str "https://win@9"), ("src/b", RawDep.str "https://b@2")])]

/-- The index built from `layeringDeps`/`layeringOs` with the script's
platform list: `src/a` keeps the base value, `src/b` is added. -/
def layeringIndex : List (String × Entry) :=
  [("src/a", Entry.deps ⟨"src/a", "https://a", "1"⟩),
   ("src/b", Entry.deps ⟨"src/b", "https://b", "2"⟩)]

/-- C7 witness: the base value of `src/a` survives the `win` override. -/
theorem entry_index_platform_layering_witness :
    buildDepsentryDictWith DEPS_OS_PLATFORMS ⟨layeringDeps, layeringOs⟩ =
      Except.ok layeringIndex ∧
    ∃ e, parseDep "src/a" (RawDep.str "https://a@1") = Except.ok e ∧
      lookupPath "src/a" layeringIndex = some e :=
  ⟨by decide,
   (entry_index_platform_layering layeringDeps layeringOs layeringOs DEPS_OS_PLATFORMS
     "src/a" (RawDep.str "https://a@1")).2.2 (by decide) layeringIndex (by decide)⟩

/-- The string case of `parseDep` in terms of the split. -/
theorem parseDep_str (path s : String) :
    parseDep path (RawDep.str s) =
      (match pySplit '@' s with
       | [url_part, revision] => Except.ok (Entry.deps ⟨path, url_part, revision⟩)
       | _ => Except.error (Err.malformedEntry path)) := by
  simp only [parseDep]
  rw [if_neg (by simp)]

/-- C8 counterexample: the claim says a plain string is split on the
FIRST `@`, so `"https://x@y@111"` would give url `https://x` and
revision `y@111`; the code unpacks `split('@')` into exactly two pieces,
so this string (two `@`s, three pieces) makes the build fail instead. -/
theorem string_dep_multi_at_counterexample :
    parseDep "p" (RawDep.str "https://x@y@111") = Except.error (Err.malformedEntry "p") ∧
    BuildDepsentryDict ⟨[("p", RawDep.str "https://x@y@111")], []⟩ =
      Except.error (Err.malformedEntry "p") ∧
    BuildDepsentryDict ⟨[("p", RawDep.str "https://x@y@111")], []⟩ ≠
      Except.ok [("p", Entry.deps ⟨"p", "https://x", "y@111"⟩)] :=
  ⟨by decide, by decide, by decide⟩

/-- C8 amended: a plain-string value containing exactly one `@` is split
at it into url and revision; a string with no `@`, or with two or more
`@`s, fails with the malformed-entry error, as does a CIPD object
lacking `packages`. -/
theorem string_dep_split_amended (path u r s : String) (uo : Option String) :
    ('@' ∉ u.data → '@' ∉ r.data →
      parseDep path (RawDep.str (u ++ "@" ++ r)) = Except.ok (Entry.deps ⟨path, u, r⟩)) ∧
    ('@' ∉ s.data → parseDep path (RawDep.str s) = Except.error (Err.malformedEntry path)) ∧
    (2 ≤ s.data.count '@' → parseDep path (RawDep.str s) = Except.error (Err.malformedEntry path)) ∧
    parseDep path (RawDep.dict (some "cipd") uo none) = Except.error (Err.malformedEntry path) := by
  refine ⟨?_, ?_, ?_, ?_⟩
  · intro hu hr2
    rw [parseDep_str]
    have hdata : (u ++ "@" ++ r).data = u.data ++ '@' :: r.data := by
      rw [strData_append, strData_append]
      simp
    have hsplit : splitCharList '@' (u.data ++ '@' :: r.data) = [u.data, r.data] := by
      rw [splitCharList_sep_append hu, splitCharList_no_sep hr2]
    simp only [pySplit, hdata, hsplit, List.map_cons, List.map_nil]
  · intro hs
    rw [parseDep_str]
    have hsplit : splitCharList '@' s.data = [s.data] := splitCharList_no_sep hs
    simp [pySplit, hsplit]
  · intro hc
    rw [parseDep_str]
    have hlen : 3 ≤ (splitCharList '@' s.data).length := by
      rw [splitCharList_length]
      omega
    simp only [pySplit]
    cases hsp : splitCharList '@' s.data with
    | nil => rw [hsp] at hlen; simp at hlen
    | cons a t1 =>
      cases t1 with
      | nil => rw [hsp] at hlen; simp at hlen
      | cons b t2 =>
        cases t2 with
        | nil => rw [hsp] at hlen; simp at hlen
        | cons c t3 => simp
  · rfl

/-- C8 amended witness: one `@` splits, no `@` fails, three pieces fail,
and a packages-less CIPD dict fails. -/
theorem string_dep_split_amended_witness :
    parseDep "p" (RawDep.str ("https://x" ++ "@" ++ "111")) =
      Except.ok (Entry.deps ⟨"p", "https://x", "111"⟩) ∧
    parseDep "p" (RawDep.str "nosep") = Except.error (Err.malformedEntry "p") ∧
    parseDep "p" (RawDep.dict (some "cipd") none none) =
      Except.error (Err.malformedEntry "p") := by
  have h := string_dep_split_amended "p" "https://x" "111" "nosep" none
  exact ⟨h.1 (by decide) (by decide), h.2.1 (by decide), h.2.2.2⟩

/-- C9 counterexample inputs: one git change with long revisions. -/
def gitChangeExample : Changed :=
  Changed.dep ⟨"src/dep", "https://u", "1111111111aaa", "2222222222bbb"⟩

/-- Concrete revision metadata for the formatter examples. -/
def msgRevisionUpdate : ChromiumRevisionUpdate :=
  ⟨"aaaaaaaaaaaa", "bbbbbbbbbbbb", "cccccccccccc", "dddddddddddd"⟩

/-- C9 counterexample: for a git change, the rendered line is
`* path: url/+log/cur10..new10`, not `* path: current..new` as the claim
describes, so the claimed line is absent from the message. -/
theorem commit_message_git_line_counterexample :
    "* src/dep: 1111111111aaa..2222222222bbb" ∉
      GenerateCommitMessageLines "me@org" msgRevisionUpdate 12 34 [gitChangeExample] ⟨"5", "5"⟩ ∧
    "* src/dep: https://u/+log/1111111111..2222222222" ∈
      GenerateCommitMessageLines "me@org" msgRevisionUpdate 12 34 [gitChangeExample] ⟨"5", "5"⟩ :=
  ⟨by decide, by decide⟩

/-- C9 amended: with an empty change list the formatter renders the
literal line `No dependencies changed.` exactly once and omits the
`Changed dependencies:` header; with a non-empty change list it renders
the header followed by exactly one `changeLine` per change
(`* path: currentVersion..newVersion` for CIPD changes,
`* path: url/+log/cur10..new10` for git changes). -/
theorem commit_message_change_block (git_author : String) (ru : ChromiumRevisionUpdate)
    (cp np : Nat) (changes : List Changed) (clang : ClangChange) :
    (changes = [] →
      (GenerateCommitMessageLines git_author ru cp np changes clang).countP
          (fun s => decide (s = "No dependencies changed.")) = 1 ∧
      "Changed dependencies:" ∉ GenerateCommitMessageLines git_author ru cp np changes clang) ∧
    (changes ≠ [] →
      "Changed dependencies:" ∈ GenerateCommitMessageLines git_author ru cp np changes clang ∧
      ∃ pre post, GenerateCommitMessageLines git_author ru cp np changes clang =
        pre ++ "Changed dependencies:" :: (changes.map changeLine ++ post)) := by
  constructor
  · intro hch
    subst hch
    simp only [GenerateCommitMessageLines, depsBlockLines, eq_self_iff_true, if_true]
    constructor
    · simp only [List.countP_append]
      have h1 : (commitHeaderLines ru cp np).countP
          (fun s => decide (s = "No dependencies changed.")) = 0 :=
        List.countP_eq_zero.mpr (fun s hs => by
          simp only [decide_eq_true_eq]
          exact (headerLines_ne ru cp np s hs).1)
      have h3 : (clangBlockLines (revInterval ru) clang).countP
          (fun s => decide (s = "No dependencies changed.")) = 0 :=
        List.countP_eq_zero.mpr (fun s hs => by
          simp only [decide_eq_true_eq]
          exact (clangLines_ne (revInterval ru) clang s hs).1)
      have h4 : (commitTrailerLines git_author
            (String.join (List.map tbrContribution []))).countP
          (fun s => decide (s = "No dependencies changed.")) = 0 :=
        List.countP_eq_zero.mpr (fun s hs => by
          simp only [decide_eq_true_eq]
          exact (trailerLines_ne _ _ s hs).1)
      rw [h1, h3, h4]
      decide
    · intro hm
      simp only [List.mem_append] at hm
      rcases hm with ((hm | hm) | hm) | hm
      · exact (headerLines_ne ru cp np _ hm).2 rfl
      · exact absurd (List.mem_singleton.mp hm) (by decide)
      · exact (clangLines_ne (revInterval ru) clang _ hm).2 rfl
      · exact (trailerLines_ne _ _ _ hm).2 rfl
  · intro hch
    constructor
    · simp only [GenerateCommitMessageLines, depsBlockLines]
      rw [if_neg hch]
      simp [List.mem_append]
    · refine ⟨commitHeaderLines ru cp np,
        ["DEPS diff: " ++ (CHROMIUM_FILE_TEMPLATE (revInterval ru) "DEPS" ++ "\n")] ++
          clangBlockLines (revInterval ru) clang ++
          commitTrailerLines git_author (String.join (changes.map tbrContribution)), ?_⟩
      simp only [GenerateCommitMessageLines, depsBlockLines]
      rw [if_neg hch]
      simp [List.append_assoc, List.cons_append]

/-- C9 amended witness: a concrete empty-change-list message has exactly
one no-change line and no header. -/
theorem commit_message_change_block_witness :
    (GenerateCommitMessageLines "me@org" msgRevisionUpdate 12 34 [] ⟨"5", "5"⟩).countP
        (fun s => decide (s = "No dependencies changed.")) = 1 ∧
    "Changed dependencies:" ∉
      GenerateCommitMessageLines "me@org" msgRevisionUpdate 12 34 [] ⟨"5", "5"⟩ :=
  (commit_message_change_block "me@org" msgRevisionUpdate 12 34 [] ⟨"5", "5"⟩).1 rfl

/-- C10: every change record a successful diff returns is a genuine
change: a git record has differing current and new revisions, a CIPD
record differing current and new versions. -/
theorem no_noop_changes (head : String → String) (skip : List String) :
    (∀ (locIdx remIdx : List (String × Entry)) (l : List Changed),
      CalculateChangedDepsFromEntries head skip locIdx remIdx = Except.ok l →
      ∀ c ∈ l, nontrivialChange c) ∧
    (∀ (d1 d2 : DepsDict) (l : List Changed),
      CalculateChangedDeps head skip d1 d2 = Except.ok l → ∀ c ∈ l, nontrivialChange c) := by
  have key : ∀ (locIdx remIdx : List (String × Entry)) (l : List Changed),
      CalculateChangedDepsFromEntries head skip locIdx remIdx = Except.ok l →
      ∀ c ∈ l, nontrivialChange c := by
    intro li ri l h c hc
    simp only [CalculateChangedDepsFromEntries] at h
    cases hloop : changedDepsLoop head skip ri li with
    | error err => simp only [hloop] at h; cases h
    | ok result =>
      simp only [hloop] at h
      cases h
      have hc2 : c ∈ result :=
        (List.perm_insertionSort changedOrder result).mem_iff.mp hc
      obtain ⟨q, f, cs, hmem, hp, hcs⟩ := loop_ok_mem hloop c hc2
      exact (processEntry_ok_mem hp c hcs).2
  refine ⟨key, ?_⟩
  intro d1 d2 l h
  simp only [CalculateChangedDeps] at h
  cases h1 : BuildDepsentryDict d1 with
  | error e => simp only [h1] at h; cases h
  | ok a =>
    simp only [h1] at h
    cases h2 : BuildDepsentryDict d2 with
    | error e => simp only [h2] at h; cases h
    | ok b =>
      simp only [h2] at h
      exact key a b l h

/-- C10 witness: the concrete diff output of `unsortedLocalIndex` only
has entries whose old and new revisions differ. -/
theorem no_noop_changes_witness :
    CalculateChangedDepsFromEntries (headConst "h") [] unsortedLocalIndex [] =
      Except.ok sortedDiffOutput ∧
    nontrivialChange (Changed.dep ⟨"src/a", "https://a", "2", "h"⟩) :=
  ⟨by decide,
   (no_noop_changes (headConst "h") []).1 unsortedLocalIndex [] sortedDiffOutput
     (by decide) (Changed.dep ⟨"src/a", "https://a", "2", "h"⟩) (by decide)⟩

end RollDeps
